import Mathlib

set_option maxRecDepth 100000

namespace Randomize7

/-! Shallow embedding of the Randomize7 pipeline (src/main.rs).

The program conditions a recorded sequence of `f32` audio samples
(`remove_dc_offset`, `normalize_audio`), extracts low-order bits of the IEEE-754
bit patterns of successive sample differences (`extract_random_data`), and runs
two statistical tests (`monobit_test`, `runs_test`) over byte sequences.

Modelling choices, stated once here:
* `f32` values are modelled by `F32`: NaN, signed infinities, and finite values
  carrying an exact rational (an unnormalized fraction `Frac` with positive
  denominator by construction).  Finite arithmetic is exact — rounding of
  finite results is idealized away, while the IEEE special-value rules
  (0/0 = NaN, 1/0 = ∞, 0·∞ = NaN, …) are modelled faithfully, since the
  claims under scrutiny are about exact algebraic identities and special-value
  propagation, not rounding error.  Negative zero is not distinguished from
  positive zero.
* `f32::to_bits` is modelled by `F32.toBits`, a genuine IEEE-754 binary32
  round-to-nearest-even encoder of the exact rational value.
* `f64` test statistics are modelled exactly: the comparison
  `0.45 < k/N && k/N < 0.55` is embedded as the equivalent integer
  cross-multiplications (equivalent for `N > 0`; for `N = 0` the source
  computes `0.0/0.0 = NaN`, both comparisons are false, and so are the
  embedded ones), and `|2*b - n| / (2*sqrt(n)) < 1.96` is embedded as the
  equivalent squared form `(2*b - n)^2 * 625 < 9604 * n`
  (valid since both sides of the original are nonnegative and
  `1.96^2 = 9604/2500`, `3.92^2 * 10000 = 153664 = 16 * 9604`).  The
  monobit test's `u32` bit-count accumulator is modelled as an unbounded
  natural, exact below `2^32`; general monobit claims carry that bound
  (see `bitCount`).
* Rust panics (`usize` underflow and division by zero under the default debug
  profile, the `step_by(0)` assertion, out-of-range shifts) are modelled by
  `Option`: `none` is a panic.  The source program has no error type and no
  error return path at all, so every `none` in this development denotes a
  panic, never a reported error value.
-/

/-- Exact unnormalized fraction: the value is `n / (d + 1)`, so the denominator
is positive by construction and no gcd normalization is ever needed. -/
structure Frac where
  n : ℤ
  d : ℕ
deriving DecidableEq, Repr

/-- Rational value of a fraction. -/
def Frac.q (x : Frac) : ℚ := x.n / (x.d + 1)

/-- Exact addition of fractions. -/
def Frac.add (x y : Frac) : Frac :=
  ⟨x.n * (y.d + 1) + y.n * (x.d + 1), (x.d + 1) * (y.d + 1) - 1⟩

/-- Exact subtraction of fractions. -/
def Frac.sub (x y : Frac) : Frac :=
  ⟨x.n * (y.d + 1) - y.n * (x.d + 1), (x.d + 1) * (y.d + 1) - 1⟩

/-- Exact multiplication of fractions. -/
def Frac.mul (x y : Frac) : Frac :=
  ⟨x.n * y.n, (x.d + 1) * (y.d + 1) - 1⟩

/-- Exact division of fractions; caller guarantees `y.n ≠ 0` (the `F32` layer
routes division by zero to the IEEE special values first). -/
def Frac.div (x y : Frac) : Frac :=
  if 0 ≤ y.n then ⟨x.n * (y.d + 1), (x.d + 1) * y.n.toNat - 1⟩
  else ⟨-(x.n * (y.d + 1)), (x.d + 1) * (-y.n).toNat - 1⟩

/-- Absolute value of a fraction. -/
def Frac.abs (x : Frac) : Frac := ⟨|x.n|, x.d⟩

/-- Strict comparison of fraction values, by cross-multiplication. -/
def Frac.blt (x y : Frac) : Bool := decide (x.n * (y.d + 1) < y.n * (x.d + 1))

/-- Larger of two fraction values (the left one on ties). -/
def Frac.max (x y : Frac) : Frac := if Frac.blt x y then y else x

/-- Model of an `f32` value: NaN, a signed infinity, or an exact finite value. -/
inductive F32 where
  | fin (x : Frac)
  | inf (neg : Bool)
  | nan
deriving DecidableEq, Repr

/-- Embed an integer as an `F32` (exact). -/
def F32.ofInt (n : ℤ) : F32 := .fin ⟨n, 0⟩

/-- IEEE-754 addition on the model, exact on finite values. -/
def F32.add : F32 → F32 → F32
  | .nan, _ => .nan
  | _, .nan => .nan
  | .inf s, .inf t => if s = t then .inf s else .nan
  | .inf s, .fin _ => .inf s
  | .fin _, .inf t => .inf t
  | .fin a, .fin b => .fin (Frac.add a b)

/-- IEEE-754 subtraction on the model, exact on finite values. -/
def F32.sub : F32 → F32 → F32
  | .nan, _ => .nan
  | _, .nan => .nan
  | .inf s, .inf t => if s = t then .nan else .inf s
  | .inf s, .fin _ => .inf s
  | .fin _, .inf t => .inf (!t)
  | .fin a, .fin b => .fin (Frac.sub a b)

/-- IEEE-754 multiplication on the model, exact on finite values;
`0 * ∞ = NaN`. -/
def F32.mul : F32 → F32 → F32
  | .nan, _ => .nan
  | _, .nan => .nan
  | .inf s, .inf t => .inf (xor s t)
  | .inf s, .fin b => if b.n = 0 then .nan else .inf (xor s (decide (b.n < 0)))
  | .fin a, .inf t => if a.n = 0 then .nan else .inf (xor t (decide (a.n < 0)))
  | .fin a, .fin b => .fin (Frac.mul a b)

/-- IEEE-754 division on the model, exact on finite values; `0/0 = NaN`,
`x/0 = ±∞` for `x ≠ 0`, `x/∞ = 0`. -/
def F32.div : F32 → F32 → F32
  | .nan, _ => .nan
  | _, .nan => .nan
  | .inf _, .inf _ => .nan
  | .inf s, .fin b => .inf (xor s (decide (b.n < 0)))
  | .fin _, .inf _ => .fin ⟨0, 0⟩
  | .fin a, .fin b =>
    if b.n = 0 then (if a.n = 0 then .nan else .inf (decide (a.n < 0)))
    else .fin (Frac.div a b)

/-- IEEE-754 absolute value on the model. -/
def F32.abs : F32 → F32
  | .nan => .nan
  | .inf _ => .inf false
  | .fin a => .fin (Frac.abs a)

/-- Rust `f32::max`: if one argument is NaN the other is returned, otherwise
the larger value. -/
def F32.max : F32 → F32 → F32
  | .nan, y => y
  | x, .nan => x
  | .inf true, y => y
  | x, .inf true => x
  | .inf false, _ => .inf false
  | _, .inf false => .inf false
  | .fin a, .fin b => .fin (Frac.max a b)

/-- The `f32::MIN` constant, `-(2^128 - 2^104)`, used by `normalize_audio` as
the initial accumulator of the peak fold. -/
def F32.MIN : F32 := .fin ⟨-(2 ^ 128 - 2 ^ 104), 0⟩

/-- Floor of base-2 logarithm of a positive natural, by fueled structural
recursion so that the kernel can evaluate it; the fuel 500 is exact for every
argument below `2^500`, and for larger arguments the result is at least 500,
which the encoder maps to infinity exactly as the true exponent would be. -/
def nlog2 : Nat → Nat → Nat
  | 0, _ => 0
  | fuel + 1, x => if x ≤ 1 then 0 else nlog2 fuel (x / 2) + 1

/-- Floor of the base-2 logarithm of `p / q` for `p, q ≥ 1`. -/
def floorLog2 (p q : Nat) : ℤ :=
  if q ≤ p then (nlog2 500 (p / q) : ℤ)
  else
    let f := nlog2 500 (q / p)
    if p * 2 ^ f = q then -(f : ℤ) else -(f : ℤ) - 1

/-- Round `p / q` (with `q ≥ 1`) to the nearest natural, ties to even. -/
def rne (p q : Nat) : Nat :=
  let m := p / q
  let r := p % q
  if 2 * r < q then m
  else if q < 2 * r then m + 1
  else if m % 2 = 0 then m else m + 1

/-- IEEE-754 binary32 round-to-nearest-even encoding of the positive magnitude
`p / q` (`p, q ≥ 1`): sign-less bit pattern, including subnormals, and the
infinity pattern on overflow. -/
def encodeMag (p q : Nat) : Nat :=
  if p * 2 ^ 126 < q then
    rne (p * 2 ^ 149) q
  else
    let e := floorLog2 p q
    let m := if 0 ≤ 23 - e then rne (p * 2 ^ (23 - e).toNat) q else rne p (q * 2 ^ (e - 23).toNat)
    let e' := if m = 2 ^ 24 then e + 1 else e
    let m' := if m = 2 ^ 24 then 2 ^ 23 else m
    if 128 ≤ e' then 0x7F800000
    else (e' + 127).toNat * 2 ^ 23 + (m' - 2 ^ 23)

/-- Model of `f32::to_bits`: the IEEE-754 binary32 bit pattern of the value
(canonical quiet NaN for NaN; zero encodes as `+0.0`). -/
def F32.toBits : F32 → Nat
  | .nan => 0x7FC00000
  | .inf false => 0x7F800000
  | .inf true => 0xFF800000
  | .fin x =>
    if x.n = 0 then 0
    else if x.n < 0 then 2 ^ 31 + encodeMag (-x.n).toNat (x.d + 1)
    else encodeMag x.n.toNat (x.d + 1)

/-- Model of `samples.iter().sum::<f32>()`: left fold of IEEE addition
starting from `0.0`. -/
def listSum (samples : List F32) : F32 := samples.foldl F32.add (F32.ofInt 0)

/-- The mean computation of `remove_dc_offset`:
`samples.iter().sum::<f32>() / samples.len() as f32`. -/
def f32Mean (samples : List F32) : F32 :=
  F32.div (listSum samples) (F32.ofInt samples.length)

/-- Model of `remove_dc_offset` (src/main.rs lines 68-71): subtract the mean
from every sample.  The in-place mutation is modelled functionally. -/
def remove_dc_offset (samples : List F32) : List F32 :=
  let mean := f32Mean samples
  samples.map (fun sample => F32.sub sample mean)

/-- The peak computation of `normalize_audio`:
`samples.iter().cloned().map(f32::abs).fold(f32::MIN, f32::max)`. -/
def maxAbs (samples : List F32) : F32 :=
  (samples.map F32.abs).foldl F32.max F32.MIN

/-- Model of `normalize_audio` (src/main.rs lines 73-81): multiply every
sample by `max_level / max_sample`.  There is no error path: a zero peak
produces an infinite factor and NaN samples. -/
def normalize_audio (samples : List F32) (max_level : F32) : List F32 :=
  let max_sample := maxAbs samples
  let normalization_factor := F32.div max_level max_sample
  samples.map (fun sample => F32.mul sample normalization_factor)

/-- Model of `extract_random_data` (src/main.rs lines 83-101).  `none` models
a panic: `samples.len() - 1` underflows on an empty slice (debug profile),
`/ output_length` is a division by zero for `output_length = 0`,
`step_by(0)` asserts when the stride is zero, and `1u32 << num_lsb` is an
overflowing shift for `num_lsb ≥ 32` (debug profile; the loop body runs at
least once whenever the stride is positive).  The `for`-loop over
`(1..samples.len()).step_by(stride)` with a `break` once `output_length`
bytes are collected is modelled by mapping over the visited index list
`List.range' 1 ⌈(n-1)/stride⌉ stride` and taking the first `output_length`
results; `lsb_bits as u8` is `% 256`. -/
def extract_random_data (samples : List F32) (num_lsb : Nat) (output_length : Nat) :
    Option (List Nat) :=
  if samples.length = 0 then none
  else if output_length = 0 then none
  else
    let samples_per_byte := (samples.length - 1) / output_length
    if samples_per_byte = 0 then none
    else if 32 ≤ num_lsb then none
    else
      let idxs := List.range' 1 ((samples.length - 1 + samples_per_byte - 1) / samples_per_byte)
        samples_per_byte
      some ((idxs.map (fun i =>
        (F32.toBits (F32.sub (samples.getD i (F32.ofInt 0)) (samples.getD (i - 1) (F32.ofInt 0)))
          &&& (2 ^ num_lsb - 1)) % 256)).take output_length)

/-- Model of `f32_to_u8` (src/main.rs lines 140-148): each sample's bit
pattern rendered as four little-endian bytes. -/
def f32_to_u8 (data : List F32) : List Nat :=
  data.flatMap (fun value =>
    let b := F32.toBits value
    [b % 256, b / 256 % 256, b / 65536 % 256, b / 16777216 % 256])

/-- Model of `u8::count_ones` for a byte. -/
def countOnes (b : Nat) : Nat :=
  (List.range 8).foldl (fun a i => a + b / 2 ^ i % 2) 0

/-- Total set-bit count of a byte sequence, as computed by `monobit_test`.
The source accumulates this in `u32` (`sum::<u32>()`); the model uses an
unbounded natural and therefore agrees with the source exactly when the
total is below `2^32` — beyond that (at least `2^29` input bytes) the source
sum would overflow, panicking in the debug profile and wrapping in release,
which this total function does not capture.  Claims about the monobit
verdict are accordingly stated under the bound `bitCount data < 2^32`,
restricting them to the overflow-free domain where the embedding is exact. -/
def bitCount (data : List Nat) : Nat := (data.map countOnes).sum

/-- Model of `monobit_test` (src/main.rs lines 112-117).  The source computes
`proportion = bit_count / total_bits` in `f64` and returns
`0.45 < proportion && proportion < 0.55`; for `total_bits > 0` this is
exactly the integer comparison below, and for `total_bits = 0` the source
proportion is NaN, both comparisons are false, and so are the ones below.
Exact on the domain where the source's `u32` bit-count accumulator does not
overflow (see `bitCount`): general monobit claims carry the bound
`bitCount data < 2^32`. -/
def monobit_test (data : List Nat) : Bool :=
  let bit_count := bitCount data
  let total_bits := data.length * 8
  decide (9 * total_bits < 20 * bit_count) && decide (20 * bit_count < 11 * total_bits)

/-- One iteration of the inner loop of `runs_test`: compare the current
value against the stored previous value, and on a change bump the transition
count and (while the count is at most 6) the histogram bucket at index
`count - 1`.  Generic in the type of compared values: the source compares
masked byte values (`α = ℕ`); the spec's reading compares boolean bits. -/
def runsStep {α : Type} [DecidableEq α] (st : α × Nat × List Nat) (bit : α) :
    α × Nat × List Nat :=
  if bit ≠ st.1 then
    (bit, st.2.1 + 1,
      if st.2.1 + 1 ≤ 6 then st.2.2.set st.2.1 (st.2.2.getD st.2.1 0 + 1) else st.2.2)
  else st

/-- Model of `runs_test` (src/main.rs lines 119-138).  `none` models the
panic of `data[0]` on an empty input.  The compared values are the masked
bytes `byte & (0x80 >> i)`, exactly as in the source.  The final comparison
`(2.0 * run_lengths[0] - n).abs() / (2.0 * n.sqrt()) < 1.96` is embedded in
the equivalent squared integer form (see the header comment). -/
def runs_test (data : List Nat) : Option Bool :=
  match data with
  | [] => none
  | d0 :: _ =>
    let st := data.foldl
      (fun st byte => (List.range 8).foldl (fun st2 i => runsStep st2 (byte &&& (128 >>> i))) st)
      (d0 &&& 128, 0, List.replicate 6 0)
    let n := data.length * 8
    some (decide ((2 * (st.2.2.getD 0 0 : ℤ) - n) ^ 2 * 625 < 9604 * n))

/-- The runs test as the claim describes it: scan the bytes as a bitstream
most-significant bit first, with a transition counted each time a *bit*
differs from the previous *bit* (the first bit of the first byte being the
initial previous value); same buckets and same final formula.  This is the
spec's reading, written to be compared against `runs_test`. -/
def runs_test_claimed (data : List Nat) : Option Bool :=
  match data with
  | [] => none
  | d0 :: _ =>
    let st := data.foldl
      (fun st byte => (List.range 8).foldl (fun st2 i => runsStep st2 (byte.testBit (7 - i))) st)
      (d0.testBit 7, 0, List.replicate 6 0)
    let n := data.length * 8
    some (decide ((2 * (st.2.2.getD 0 0 : ℤ) - n) ^ 2 * 625 < 9604 * n))

/-- The conditioning stage exactly as `main` (src/main.rs lines 47-51) applies
it: DC-offset removal followed by normalization to peak `1.0`. -/
def conditioned (recording : List F32) : List F32 :=
  normalize_audio (remove_dc_offset recording) (F32.ofInt 1)

/-- The Random Byte Sequence `main` extracts (src/main.rs lines 53-55):
`num_lsb = 8`, `output_length = 32`, applied to the conditioned recording. -/
def main_random_data (recording : List F32) : Option (List Nat) :=
  extract_random_data (conditioned recording) 8 32

/-- The byte sequence `main` actually hands to both statistical tests
(src/main.rs line 59): `f32_to_u8` of the conditioned recording — not the
extracted random bytes. -/
def main_test_input (recording : List F32) : List Nat :=
  f32_to_u8 (conditioned recording)

/-- The monobit verdict `main` reports (src/main.rs lines 60-61). -/
def main_monobit_verdict (recording : List F32) : Bool :=
  monobit_test (main_test_input recording)

/-- The runs verdict `main` reports (src/main.rs lines 63-64). -/
def main_runs_verdict (recording : List F32) : Option Bool :=
  runs_test (main_test_input recording)

/-- The alternating byte sequence `0xAA, 0x55, 0xAA, 0x55, ...` of length `k`
from the spec's monobit example. -/
def altBytes (k : Nat) : List Nat :=
  (List.range k).map (fun i => if i % 2 = 0 then 0xAA else 0x55)

/-- The value `1 - 2^-24` (exactly representable in `f32`, encoding
`0x3F7FFFFF`, a bit-dense pattern with 29 set bits). -/
def vP : F32 := .fin ⟨16777215, 16777215⟩

/-- The value `-(1 - 2^-24)` (encoding `0xBF7FFFFF`, 30 set bits). -/
def vN : F32 := .fin ⟨-16777215, 16777215⟩

/-- A 33-sample prefix with exact mean contribution `1`, peak `1.0` at the
head, and a prescribed number of set bits in its `f32` encodings.  Recordings
sharing this prefix produce identical extracted bytes under
`stride = 1, output_length = 32`, since extraction reads samples 0..32 only. -/
def pinnedC : List F32 :=
  [F32.ofInt 1] ++
  [vP, vN, vP, vN, vP, vN, vP, vN, vP, vN, vP, vN, vP, vN, vP, vN, vP, vN, vP, vN, vP, vN] ++
  [.fin ⟨1, 1⟩, .fin ⟨-1, 1⟩] ++ List.replicate 8 (F32.ofInt 0)

/-- A 40-sample recording: `pinnedC` followed by two samples of value `-0.5`
(written with denominator `2^24`) and five zeros.  Total value sum is exactly
`0` and the peak is exactly `1`, so conditioning leaves the values unchanged.
Its conditioned `f32_to_u8` rendering has 683 set bits out of 1280. -/
def rec1 : List F32 :=
  pinnedC ++ [.fin ⟨-8388608, 16777215⟩, .fin ⟨-8388608, 16777215⟩] ++
    List.replicate 5 (F32.ofInt 0)

/-- A 40-sample recording differing from `rec1` only in samples 33 and 34
(values `-(1-2^-24)` and `-2^-24`, again summing to `-1` with the same
denominators, so the conditioner state is structurally identical).  Its
conditioned `f32_to_u8` rendering has 705 set bits out of 1280 — on the other
side of the 0.55 monobit threshold — while samples 0..32, and hence the
extracted bytes, coincide with `rec1`. -/
def rec2 : List F32 :=
  pinnedC ++ [.fin ⟨-16777215, 16777215⟩, .fin ⟨-1, 16777215⟩] ++
    List.replicate 5 (F32.ofInt 0)

/-- Helper: the denominator of a fraction is nonzero in ℚ. -/
theorem Frac.den_ne_zero (x : Frac) : ((x.d : ℚ) + 1) ≠ 0 := by positivity

/-- Helper: the stored denominator of `Frac.add` is the product minus one. -/
theorem Frac.add_den_succ (x y : Frac) :
    (((x.d + 1) * (y.d + 1) - 1 : ℕ) : ℚ) + 1 = ((x.d : ℚ) + 1) * ((y.d : ℚ) + 1) := by
  have hP : (1 : ℕ) ≤ (x.d + 1) * (y.d + 1) :=
    Nat.one_le_iff_ne_zero.mpr (Nat.mul_ne_zero (Nat.succ_ne_zero _) (Nat.succ_ne_zero _))
  rw [Nat.cast_sub hP]
  push_cast
  ring

/-- Homomorphism: `Frac.add` computes rational addition. -/
theorem Frac.q_add (x y : Frac) : (Frac.add x y).q = x.q + y.q := by
  dsimp only [Frac.q, Frac.add]
  rw [Frac.add_den_succ x y]
  have hx := Frac.den_ne_zero x
  have hy := Frac.den_ne_zero y
  push_cast
  field_simp

/-- Homomorphism: `Frac.sub` computes rational subtraction. -/
theorem Frac.q_sub (x y : Frac) : (Frac.sub x y).q = x.q - y.q := by
  dsimp only [Frac.q, Frac.sub]
  rw [Frac.add_den_succ x y]
  have hx := Frac.den_ne_zero x
  have hy := Frac.den_ne_zero y
  push_cast
  field_simp
  ring

/-- Homomorphism: `Frac.mul` computes rational multiplication. -/
theorem Frac.q_mul (x y : Frac) : (Frac.mul x y).q = x.q * y.q := by
  dsimp only [Frac.q, Frac.mul]
  rw [Frac.add_den_succ x y]
  have hx := Frac.den_ne_zero x
  have hy := Frac.den_ne_zero y
  push_cast
  field_simp

/-- Homomorphism: `Frac.div` computes rational division when the divisor is
nonzero. -/
theorem Frac.q_div (x y : Frac) (h : y.n ≠ 0) : (Frac.div x y).q = x.q / y.q := by
  have hx := Frac.den_ne_zero x
  have hy := Frac.den_ne_zero y
  have hyq : (y.n : ℚ) ≠ 0 := Int.cast_ne_zero.mpr h
  rcases lt_or_le y.n 0 with hneg | hpos
  · have hif : ¬ 0 ≤ y.n := not_le.mpr hneg
    have htn : (((-y.n).toNat : ℚ)) = -(y.n : ℚ) := by
      have h2 : ((-y.n).toNat : ℤ) = -y.n := Int.toNat_of_nonneg (by omega)
      exact_mod_cast h2
    have hden : (((x.d + 1) * (-y.n).toNat - 1 : ℕ) : ℚ) + 1 = ((x.d : ℚ) + 1) * (-(y.n : ℚ)) := by
      have h1 : (1 : ℕ) ≤ (x.d + 1) * (-y.n).toNat := by
        have h3 : 1 ≤ (-y.n).toNat := by omega
        exact Nat.one_le_iff_ne_zero.mpr (Nat.mul_ne_zero (Nat.succ_ne_zero _) (by omega))
      rw [Nat.cast_sub h1]
      push_cast
      rw [htn]
      ring
    dsimp only [Frac.q, Frac.div]
    rw [if_neg hif]
    dsimp only
    rw [hden]
    push_cast
    field_simp
  · have hpos' : 0 < y.n := lt_of_le_of_ne hpos (Ne.symm h)
    have htn : ((y.n.toNat : ℚ)) = (y.n : ℚ) := by
      have h2 : (y.n.toNat : ℤ) = y.n := Int.toNat_of_nonneg hpos
      exact_mod_cast h2
    have hden : (((x.d + 1) * y.n.toNat - 1 : ℕ) : ℚ) + 1 = ((x.d : ℚ) + 1) * (y.n : ℚ) := by
      have h1 : (1 : ℕ) ≤ (x.d + 1) * y.n.toNat := by
        have h3 : 1 ≤ y.n.toNat := by omega
        exact Nat.one_le_iff_ne_zero.mpr (Nat.mul_ne_zero (Nat.succ_ne_zero _) (by omega))
      rw [Nat.cast_sub h1]
      push_cast
      rw [htn]
      ring
    dsimp only [Frac.q, Frac.div]
    rw [if_pos hpos]
    dsimp only
    rw [hden]
    push_cast
    field_simp

/-- Homomorphism: `Frac.abs` computes the rational absolute value. -/
theorem Frac.q_abs (x : Frac) : (Frac.abs x).q = |x.q| := by
  dsimp only [Frac.q, Frac.abs]
  rw [abs_div, Int.cast_abs, abs_of_pos (a := ((x.d : ℚ) + 1)) (by positivity)]

/-- The comparison `Frac.blt` decides strict order of rational values. -/
theorem Frac.blt_iff (x y : Frac) : Frac.blt x y = true ↔ x.q < y.q := by
  dsimp only [Frac.blt, Frac.q]
  rw [decide_eq_true_iff, div_lt_div_iff₀ (by positivity) (by positivity)]
  constructor
  · intro h
    exact_mod_cast h
  · intro h
    exact_mod_cast h

/-- Homomorphism: `Frac.max` computes the rational maximum. -/
theorem Frac.q_max (x y : Frac) : (Frac.max x y).q = Max.max x.q y.q := by
  dsimp only [Frac.max]
  rcases hb : Frac.blt x y with _ | _
  · have hlt : ¬ x.q < y.q := by
      rw [← Frac.blt_iff x y, hb]
      simp
    rw [if_neg (by simp [hb])]
    exact (max_eq_left (le_of_not_lt hlt)).symm
  · have hlt : x.q < y.q := (Frac.blt_iff x y).mp hb
    rw [if_pos (by simp [hb])]
    exact (max_eq_right (le_of_lt hlt)).symm

/-- A fraction's value is zero exactly when its numerator is zero. -/
theorem Frac.q_eq_zero_iff (x : Frac) : x.q = 0 ↔ x.n = 0 := by
  dsimp only [Frac.q]
  rw [div_eq_zero_iff]
  have := Frac.den_ne_zero x
  simp [this]

/-- A fraction's value is one exactly when its numerator equals its
denominator. -/
theorem Frac.q_eq_one_iff (x : Frac) : x.q = 1 ↔ x.n = (x.d : ℤ) + 1 := by
  dsimp only [Frac.q]
  rw [div_eq_one_iff_eq (Frac.den_ne_zero x)]
  constructor
  · intro h
    exact_mod_cast h
  · intro h
    exact_mod_cast h

/-- Unfolding: addition of finite values. -/
theorem F32.add_fin (a b : Frac) : F32.add (.fin a) (.fin b) = .fin (a.add b) := rfl

/-- Unfolding: subtraction of finite values. -/
theorem F32.sub_fin (a b : Frac) : F32.sub (.fin a) (.fin b) = .fin (a.sub b) := rfl

/-- Unfolding: multiplication of finite values. -/
theorem F32.mul_fin (a b : Frac) : F32.mul (.fin a) (.fin b) = .fin (a.mul b) := rfl

/-- Unfolding: division of finite values with nonzero divisor. -/
theorem F32.div_fin (a b : Frac) (h : b.n ≠ 0) : F32.div (.fin a) (.fin b) = .fin (a.div b) := by
  simp [F32.div, h]

/-- Folding `F32.add` over embedded finite values stays finite and mirrors the
fraction-level fold. -/
theorem foldl_add_map_fin (c : Frac) (l : List Frac) :
    (l.map F32.fin).foldl F32.add (F32.fin c) = F32.fin (l.foldl Frac.add c) := by
  induction l generalizing c with
  | nil => rfl
  | cons a t ih => exact ih (c.add a)

/-- The source's sample sum on embedded finite values. -/
theorem listSum_map_fin (l : List Frac) :
    listSum (l.map F32.fin) = F32.fin (l.foldl Frac.add ⟨0, 0⟩) :=
  foldl_add_map_fin ⟨0, 0⟩ l

/-- Value of a fraction-level sum fold. -/
theorem q_foldl_add (c : Frac) (l : List Frac) :
    (l.foldl Frac.add c).q = c.q + (l.map Frac.q).sum := by
  induction l generalizing c with
  | nil => simp
  | cons a t ih =>
    rw [List.foldl_cons, ih (c.add a), Frac.q_add, List.map_cons, List.sum_cons]
    ring

/-- Folding `F32.max` over embedded finite values stays finite and mirrors the
fraction-level fold. -/
theorem foldl_max_map_fin (c : Frac) (l : List Frac) :
    (l.map F32.fin).foldl F32.max (F32.fin c) = F32.fin (l.foldl Frac.max c) := by
  induction l generalizing c with
  | nil => rfl
  | cons a t ih => exact ih (c.max a)

/-- The source's peak fold on embedded finite values. -/
theorem maxAbs_map_fin (l : List Frac) :
    maxAbs (l.map F32.fin) =
      F32.fin ((l.map Frac.abs).foldl Frac.max ⟨-(2 ^ 128 - 2 ^ 104), 0⟩) := by
  unfold maxAbs
  rw [List.map_map]
  have h1 : F32.abs ∘ F32.fin = F32.fin ∘ Frac.abs := rfl
  rw [h1, ← List.map_map]
  exact foldl_max_map_fin _ _

/-- Value of a fraction-level max fold. -/
theorem q_foldl_max (c : Frac) (l : List Frac) :
    (l.foldl Frac.max c).q = (l.map Frac.q).foldl Max.max c.q := by
  induction l generalizing c with
  | nil => rfl
  | cons a t ih =>
    rw [List.foldl_cons, ih (c.max a), List.map_cons, List.foldl_cons, Frac.q_max]

/-- The initial accumulator bounds a ℚ max fold from below. -/
theorem le_foldl_max_init (c : ℚ) (l : List ℚ) : c ≤ l.foldl Max.max c := by
  induction l generalizing c with
  | nil => exact le_refl c
  | cons a t ih => exact le_trans (le_max_left c a) (ih (Max.max c a))

/-- Every member bounds a ℚ max fold from below. -/
theorem le_foldl_max_mem {x : ℚ} {l : List ℚ} (hx : x ∈ l) (c : ℚ) :
    x ≤ l.foldl Max.max c := by
  induction l generalizing c with
  | nil => cases hx
  | cons a t ih =>
    rcases List.mem_cons.mp hx with h | h
    · subst h
      exact le_trans (le_max_right c x) (le_foldl_max_init _ _)
    · exact ih h _

/-- A common upper bound of the accumulator and the members bounds the fold. -/
theorem foldl_max_le {B : ℚ} {l : List ℚ} (c : ℚ) (hc : c ≤ B) (hl : ∀ x ∈ l, x ≤ B) :
    l.foldl Max.max c ≤ B := by
  induction l generalizing c with
  | nil => exact hc
  | cons a t ih =>
    exact ih _ (max_le hc (hl a (by simp))) (fun x hx => hl x (by simp [hx]))

/-- A ℚ max fold returns the accumulator or one of the members. -/
theorem foldl_max_eq_init_or_mem (c : ℚ) (l : List ℚ) :
    l.foldl Max.max c = c ∨ l.foldl Max.max c ∈ l := by
  induction l generalizing c with
  | nil => exact Or.inl rfl
  | cons a t ih =>
    rw [List.foldl_cons]
    rcases ih (Max.max c a) with h | h
    · rcases max_choice c a with h2 | h2
      · exact Or.inl (by rw [h, h2])
      · exact Or.inr (by rw [h, h2]; exact List.mem_cons_self a t)
    · exact Or.inr (List.mem_cons_of_mem a h)

/-- Sum of a constant shift over a ℚ list. -/
theorem sum_map_sub_const (l : List ℚ) (m : ℚ) :
    (l.map (fun x => x - m)).sum = l.sum - l.length * m := by
  induction l with
  | nil => simp
  | cons a t ih =>
    rw [List.map_cons, List.sum_cons, ih, List.sum_cons, List.length_cons]
    push_cast
    ring

/-- Sum of a constant scale over a ℚ list. -/
theorem sum_map_mul_const (l : List ℚ) (r : ℚ) :
    (l.map (fun x => x * r)).sum = l.sum * r := by
  induction l with
  | nil => simp
  | cons a t ih =>
    rw [List.map_cons, List.sum_cons, ih, List.sum_cons]
    ring

/-- Helper: `getD` on a mapped list, in bounds, is the function applied to
`getD` of the original list. -/
theorem getD_map_of_lt {α β : Type} (G : α → β) (l : List α) (i : Nat) (d : β) (d' : α)
    (h : i < l.length) : (l.map G).getD i d = G (l.getD i d') := by
  simp [List.getD_eq_getElem?_getD, List.getElem?_map, List.getElem?_eq_getElem h]

/-- Helper: lists agreeing on their first `k` elements have equal `getD`
below `k`. -/
theorem getD_eq_of_take_eq {α : Type} {l l' : List α} {k : Nat} (h : l.take k = l'.take k)
    (i : Nat) (d : α) (hik : i < k) : l.getD i d = l'.getD i d := by
  rw [List.getD_eq_getElem?_getD, List.getD_eq_getElem?_getD]
  have h1 : l[i]? = l'[i]? := by
    have h2 := congrArg (fun t => t[i]?) h
    simpa [List.getElem?_take, hik] using h2
  rw [h1]

/-- Helper: extraction with `num_lsb = 8, output_length = 32` from a mapped
40-sample list depends only on the first 33 elements of the underlying list. -/
theorem extract_eq_of_prefix (G : F32 → F32) (l l' : List F32) (hl : l.length = 40)
    (hl' : l'.length = 40) (hpre : l.take 33 = l'.take 33) :
    extract_random_data (l.map G) 8 32 = extract_random_data (l'.map G) 8 32 := by
  unfold extract_random_data
  rw [List.length_map, List.length_map, hl, hl']
  norm_num
  rw [← List.map_take, ← List.map_take]
  have hr : (List.range' 1 39 1).take 32 = List.range' 1 32 1 := by decide
  rw [hr]
  apply List.map_congr_left
  intro i hi
  have hi' : 1 ≤ i ∧ i < 33 := by simpa [List.mem_range'_1] using hi
  have e1 : l[i]? = l'[i]? := by
    have h2 := congrArg (fun t => t[i]?) hpre
    have hi33 : i < 33 := hi'.2
    simpa [List.getElem?_take, hi33] using h2
  have e2 : l[i - 1]? = l'[i - 1]? := by
    have h2 := congrArg (fun t => t[i - 1]?) hpre
    have hi33 : i - 1 < 33 := by omega
    simpa [List.getElem?_take, hi33] using h2
  rw [e1, e2]

/-- C1: the claim says both test verdicts are pure functions of the extracted
output bytes.  In the code, `main` hands the tests `f32_to_u8` of the
conditioned recording instead of the extracted bytes: the recordings `rec1`
and `rec2` produce identical Random Byte Sequences but different monobit
verdicts, so the verdict is not a function of the extracted bytes. -/
theorem main_verdict_not_function_of_extracted_bytes :
    main_random_data rec1 = main_random_data rec2 ∧
      main_monobit_verdict rec1 ≠ main_monobit_verdict rec2 := by
  constructor
  · show extract_random_data (conditioned rec1) 8 32 =
      extract_random_data (conditioned rec2) 8 32
    have hsum : listSum rec1 = listSum rec2 := by decide
    have hmax : maxAbs (remove_dc_offset rec1) = maxAbs (remove_dc_offset rec2) := by decide
    have hlen : rec1.length = rec2.length := by decide
    have hmean : f32Mean rec1 = f32Mean rec2 := by
      unfold f32Mean
      rw [hsum, hlen]
    have hc1 : conditioned rec1 = rec1.map (fun s =>
        F32.mul (F32.sub s (f32Mean rec1))
          (F32.div (F32.ofInt 1) (maxAbs (remove_dc_offset rec1)))) := by
      unfold conditioned normalize_audio remove_dc_offset
      rw [List.map_map]
      rfl
    have hc2 : conditioned rec2 = rec2.map (fun s =>
        F32.mul (F32.sub s (f32Mean rec2))
          (F32.div (F32.ofInt 1) (maxAbs (remove_dc_offset rec2)))) := by
      unfold conditioned normalize_audio remove_dc_offset
      rw [List.map_map]
      rfl
    rw [hc1, hc2, hmean, hmax]
    exact extract_eq_of_prefix _ rec1 rec2 (by decide) (by decide) (by decide)
  · have h1 : main_monobit_verdict rec1 = true := by decide
    have h2 : main_monobit_verdict rec2 = false := by decide
    simp [h1, h2]

/-- C2: the claim says `output_length > n - 1` (stride 0) is rejected with an
`InsufficientSamples` error rather than panicking.  The code has no error
type at all: `step_by(0)` panics (modelled by `none`), while the boundary
`output_length = n - 1` indeed succeeds with stride 1 and full output. -/
theorem stride_zero_panics_and_boundary_succeeds :
    extract_random_data (List.replicate 4 (F32.ofInt 0)) 8 32 = none ∧
      extract_random_data (List.replicate 4 (F32.ofInt 0)) 8 3 = some [0, 0, 0] := by
  decide

/-- C3: the claim says empty or all-equal input makes conditioning fail with
`DegenerateSignal` and that no NaN is propagated.  The code has no error
path: an all-zero (or all-equal) input yields an infinite normalization
factor and all-NaN output, and an empty input is silently passed through. -/
theorem degenerate_conditioning_yields_nan_without_error :
    conditioned (List.replicate 4 (F32.ofInt 0)) = List.replicate 4 F32.nan ∧
      conditioned (List.replicate 3 (F32.ofInt 5)) = List.replicate 3 F32.nan ∧
      conditioned ([] : List F32) = [] := by
  decide

/-- C5 counterexample: on the all-ones bytes `[0xFF, 0xFF]` the implemented
runs test (which compares masked byte values `byte & (0x80 >> i)`, so
consecutive set bits at different positions count as transitions) passes,
while the claimed bit-comparison reading of the scan fails. -/
theorem runs_test_differs_from_claimed_reading :
    runs_test [255, 255] = some true ∧ runs_test_claimed [255, 255] = some false := by
  decide

/-- C8: the claim says both tests fail with an `EmptyInput` error on an empty
byte sequence.  In the code, `monobit_test` of an empty slice returns the
plain boolean `false` (its `0/0` proportion is NaN and both comparisons are
false), and `runs_test` panics on `data[0]` (modelled by `none`); no
`EmptyInput` error exists. -/
theorem empty_input_tests_do_not_error :
    monobit_test [] = false ∧ runs_test [] = none := by
  decide

/-- C9: for every non-empty, non-degenerate (not all values equal) finite
sample sequence, the conditioned output has arithmetic mean exactly zero and
peak absolute value exactly one, as measured by the source's own mean and
peak computations (in the exact-arithmetic model: `x.n = 0` says the mean
value is `0`, and `y.n = y.d + 1` says the peak value is `1`). -/
theorem conditioner_mean_zero_and_peak_one (fs : List Frac) (hne : fs ≠ [])
    (hvar : ∃ a ∈ fs, ∃ b ∈ fs, Frac.q a ≠ Frac.q b) :
    (∃ x, f32Mean (conditioned (fs.map F32.fin)) = F32.fin x ∧ x.n = 0) ∧
      (∃ y, maxAbs (conditioned (fs.map F32.fin)) = F32.fin y ∧ y.n = (y.d : ℤ) + 1) := by
  have hlen : fs.length ≠ 0 := by
    simpa using hne
  have hnne : ((fs.length : ℤ)) ≠ 0 := by exact_mod_cast hlen
  have hnq : ((fs.length : ℚ)) ≠ 0 := by exact_mod_cast hlen
  set S : Frac := fs.foldl Frac.add ⟨0, 0⟩ with hS
  set μ : Frac := Frac.div S ⟨(fs.length : ℤ), 0⟩ with hμ
  have hSq : S.q = (fs.map Frac.q).sum := by
    rw [hS, q_foldl_add]
    norm_num [Frac.q]
  have hmean_in : f32Mean (fs.map F32.fin) = F32.fin μ := by
    unfold f32Mean
    rw [listSum_map_fin, List.length_map]
    show F32.div (F32.fin S) (F32.fin ⟨(fs.length : ℤ), 0⟩) = F32.fin μ
    rw [F32.div_fin _ _ hnne, hμ]
  have hμq : μ.q = S.q / fs.length := by
    rw [hμ, Frac.q_div _ _ hnne]
    norm_num [Frac.q]
  set ds : List Frac := fs.map (fun f => Frac.sub f μ) with hds
  have hrdc : remove_dc_offset (fs.map F32.fin) = ds.map F32.fin := by
    unfold remove_dc_offset
    rw [hmean_in, hds, List.map_map, List.map_map]
    rfl
  set minF : Frac := ⟨-(2 ^ 128 - 2 ^ 104), 0⟩ with hminF
  set M : Frac := (ds.map Frac.abs).foldl Frac.max minF with hM
  have hmaxr : maxAbs (remove_dc_offset (fs.map F32.fin)) = F32.fin M := by
    rw [hrdc, maxAbs_map_fin]
  have habs_list : (ds.map Frac.abs).map Frac.q = fs.map (fun f => |f.q - μ.q|) := by
    rw [hds, List.map_map, List.map_map]
    apply List.map_congr_left
    intro a _
    show ((Frac.sub a μ).abs).q = |a.q - μ.q|
    rw [Frac.q_abs, Frac.q_sub]
  have hMq : M.q = (fs.map (fun f => |f.q - μ.q|)).foldl Max.max minF.q := by
    rw [hM, q_foldl_max, habs_list]
  have hminFq : minF.q < 0 := by
    rw [hminF]
    norm_num [Frac.q]
  obtain ⟨a, ha, b, hb, hab⟩ := hvar
  have hM_ge_a : |a.q - μ.q| ≤ M.q := by
    rw [hMq]
    exact le_foldl_max_mem (List.mem_map_of_mem _ ha) _
  have hM_ge_b : |b.q - μ.q| ≤ M.q := by
    rw [hMq]
    exact le_foldl_max_mem (List.mem_map_of_mem _ hb) _
  have hMpos : 0 < M.q := by
    rcases eq_or_ne a.q μ.q with hq | hq
    · have hbq : b.q ≠ μ.q := fun h2 => hab (by rw [hq, h2])
      exact lt_of_lt_of_le (abs_pos.mpr (sub_ne_zero.mpr hbq)) hM_ge_b
    · exact lt_of_lt_of_le (abs_pos.mpr (sub_ne_zero.mpr hq)) hM_ge_a
  have hMn : M.n ≠ 0 := by
    intro h0
    rw [(Frac.q_eq_zero_iff M).mpr h0] at hMpos
    exact lt_irrefl _ hMpos
  set φ : Frac := Frac.div ⟨1, 0⟩ M with hφ
  have hφq : φ.q = 1 / M.q := by
    rw [hφ, Frac.q_div _ _ hMn]
    norm_num [Frac.q]
  set es : List Frac := ds.map (fun d => Frac.mul d φ) with hes
  have hcond : conditioned (fs.map F32.fin) = es.map F32.fin := by
    unfold conditioned normalize_audio
    dsimp only
    rw [hmaxr]
    rw [show F32.div (F32.ofInt 1) (F32.fin M) = F32.fin φ from F32.div_fin _ _ hMn]
    rw [hrdc, hes, hds]
    simp only [List.map_map]
    apply List.map_congr_left
    intro d _
    rfl
  have heslen : es.length = fs.length := by
    rw [hes, hds, List.length_map, List.length_map]
  have hesq : es.map Frac.q = (fs.map (fun f => f.q - μ.q)).map (fun x => x * φ.q) := by
    rw [hes, hds, List.map_map, List.map_map, List.map_map]
    apply List.map_congr_left
    intro f _
    show ((Frac.sub f μ).mul φ).q = (f.q - μ.q) * φ.q
    rw [Frac.q_mul, Frac.q_sub]
  have hsum_ds : (fs.map (fun f => f.q - μ.q)).sum = 0 := by
    have h1 : fs.map (fun f => f.q - μ.q) = (fs.map Frac.q).map (fun x => x - μ.q) := by
      rw [List.map_map]
      rfl
    rw [h1, sum_map_sub_const, List.length_map, ← hSq, hμq]
    field_simp
  have hsum_es : (es.map Frac.q).sum = 0 := by
    rw [hesq, sum_map_mul_const, hsum_ds, zero_mul]
  constructor
  · rw [hcond]
    refine ⟨Frac.div (es.foldl Frac.add ⟨0, 0⟩) ⟨(es.length : ℤ), 0⟩, ?_, ?_⟩
    · unfold f32Mean
      rw [listSum_map_fin, List.length_map]
      have hesne : ((es.length : ℤ)) ≠ 0 := by
        rw [heslen]
        exact hnne
      show F32.div (F32.fin (es.foldl Frac.add ⟨0, 0⟩)) (F32.fin ⟨(es.length : ℤ), 0⟩) = _
      rw [F32.div_fin _ _ hesne]
    · apply (Frac.q_eq_zero_iff _).mp
      have hesne : ((es.length : ℤ)) ≠ 0 := by
        rw [heslen]
        exact hnne
      rw [Frac.q_div _ _ hesne, q_foldl_add, hsum_es]
      norm_num [Frac.q]
  · rw [hcond, maxAbs_map_fin]
    refine ⟨_, rfl, ?_⟩
    apply (Frac.q_eq_one_iff _).mp
    have hYabs : ((es.map Frac.abs).map Frac.q) =
        fs.map (fun f => |f.q - μ.q| * (1 / M.q)) := by
      rw [hes, hds, List.map_map, List.map_map, List.map_map]
      apply List.map_congr_left
      intro f _
      show (((Frac.sub f μ).mul φ).abs).q = |f.q - μ.q| * (1 / M.q)
      rw [Frac.q_abs, Frac.q_mul, Frac.q_sub, abs_mul, hφq,
        abs_of_pos (a := 1 / M.q) (by positivity)]
    have hYq : ((es.map Frac.abs).foldl Frac.max ⟨-(2 ^ 128 - 2 ^ 104), 0⟩).q =
        (fs.map (fun f => |f.q - μ.q| * (1 / M.q))).foldl Max.max minF.q := by
      rw [q_foldl_max, hYabs, hminF]
    rw [hYq]
    have hub : (fs.map (fun f => |f.q - μ.q| * (1 / M.q))).foldl Max.max minF.q ≤ 1 := by
      apply foldl_max_le
      · exact le_of_lt (lt_of_lt_of_le hminFq zero_le_one)
      · intro x hx
        obtain ⟨f, hf, rfl⟩ := List.mem_map.mp hx
        have h1 : |f.q - μ.q| ≤ M.q := by
          rw [hMq]
          exact le_foldl_max_mem (List.mem_map_of_mem _ hf) _
        calc |f.q - μ.q| * (1 / M.q) ≤ M.q * (1 / M.q) :=
              mul_le_mul_of_nonneg_right h1 (by positivity)
          _ = 1 := by field_simp
    have hlb : 1 ≤ (fs.map (fun f => |f.q - μ.q| * (1 / M.q))).foldl Max.max minF.q := by
      have hMmem : M.q ∈ fs.map (fun f => |f.q - μ.q|) := by
        rcases foldl_max_eq_init_or_mem minF.q (fs.map (fun f => |f.q - μ.q|)) with h | h
        · exfalso
          rw [← hMq] at h
          rw [h] at hMpos
          exact lt_irrefl _ (lt_trans hMpos hminFq)
        · rw [hMq]
          exact h
      obtain ⟨f0, hf0, hf0eq⟩ := List.mem_map.mp hMmem
      have hmem2 : |f0.q - μ.q| * (1 / M.q) ∈
          fs.map (fun f => |f.q - μ.q| * (1 / M.q)) := by
        have h2 : (fun f => |f.q - μ.q| * (1 / M.q)) f0 = |f0.q - μ.q| * (1 / M.q) := rfl
        exact h2 ▸ List.mem_map_of_mem _ hf0
      have h1 : |f0.q - μ.q| * (1 / M.q) = 1 := by
        rw [hf0eq]
        field_simp
      calc (1 : ℚ) = |f0.q - μ.q| * (1 / M.q) := h1.symm
        _ ≤ _ := le_foldl_max_mem hmem2 _
    exact le_antisymm hub hlb

/-- The nested byte/bit loops of the runs test equal a single fold over the
flattened masked-value stream. -/
theorem runs_fold_flatten (data : List Nat) (init : Nat × Nat × List Nat) :
    data.foldl (fun st byte =>
        (List.range 8).foldl (fun st2 i => runsStep st2 (byte &&& (128 >>> i))) st) init =
      (data.flatMap (fun b => (List.range 8).map (fun i => b &&& (128 >>> i)))).foldl
        runsStep init := by
  induction data generalizing init with
  | nil => rfl
  | cons b t ih =>
    rw [List.foldl_cons, List.flatMap_cons, List.foldl_append, List.foldl_map]
    exact ih _

/-- One step of the runs scan never decreases the transition count. -/
theorem runsStep_cnt_le {α : Type} [DecidableEq α] (st : α × Nat × List Nat) (b : α) :
    st.2.1 ≤ (runsStep st b).2.1 := by
  unfold runsStep
  split
  · exact Nat.le_succ _
  · exact le_refl _

/-- The runs scan never decreases the transition count. -/
theorem foldl_runsStep_cnt_le {α : Type} [DecidableEq α] (L : List α)
    (st : α × Nat × List Nat) : st.2.1 ≤ (L.foldl runsStep st).2.1 := by
  induction L generalizing st with
  | nil => exact le_refl _
  | cons a t ih => exact le_trans (runsStep_cnt_le st a) (ih _)

/-- Scanning values all equal to the stored previous value changes nothing. -/
theorem foldl_runsStep_const {α : Type} [DecidableEq α] (L : List α)
    (st : α × Nat × List Nat) (h : ∀ x ∈ L, x = st.1) : L.foldl runsStep st = st := by
  induction L with
  | nil => rfl
  | cons a t ih =>
    have ha : a = st.1 := h a (by simp)
    have hstep : runsStep st a = st := by
      unfold runsStep
      rw [if_neg (by simp [ha])]
    rw [List.foldl_cons, hstep]
    exact ih (fun x hx => h x (by simp [hx]))

/-- If some scanned value differs from the stored previous value, at least one
transition is counted. -/
theorem foldl_runsStep_pos {α : Type} [DecidableEq α] (L : List α) :
    ∀ st : α × Nat × List Nat, (∃ x ∈ L, x ≠ st.1) →
      1 ≤ (L.foldl runsStep st).2.1 := by
  induction L with
  | nil =>
    intro st h
    obtain ⟨x, hx, _⟩ := h
    cases hx
  | cons a t ih =>
    intro st h
    by_cases ha : a = st.1
    · have hstep : runsStep st a = st := by
        unfold runsStep
        rw [if_neg (by simp [ha])]
      rw [List.foldl_cons, hstep]
      apply ih st
      obtain ⟨x, hx, hxne⟩ := h
      rcases List.mem_cons.mp hx with h2 | h2
      · exact absurd (h2.trans ha) hxne
      · exact ⟨x, h2, hxne⟩
    · rw [List.foldl_cons]
      have hstep : (runsStep st a).2.1 = st.2.1 + 1 := by
        unfold runsStep
        rw [if_pos (by simp [ha])]
      calc 1 ≤ (runsStep st a).2.1 := by omega
        _ ≤ _ := foldl_runsStep_cnt_le t _

/-- One step preserves the bucket-zero invariant: bucket 0 holds 1 exactly
when the transition count is positive, and the bucket list keeps length 6. -/
theorem runsStep_inv {α : Type} [DecidableEq α] (st : α × Nat × List Nat) (b : α)
    (h : st.2.2.getD 0 0 = (if st.2.1 = 0 then 0 else 1) ∧ st.2.2.length = 6) :
    (runsStep st b).2.2.getD 0 0 = (if (runsStep st b).2.1 = 0 then 0 else 1) ∧
      (runsStep st b).2.2.length = 6 := by
  unfold runsStep
  split
  · dsimp only
    by_cases h6 : st.2.1 + 1 ≤ 6
    · rw [if_pos h6, if_neg (by omega : ¬ st.2.1 + 1 = 0)]
      refine ⟨?_, by rw [List.length_set]; exact h.2⟩
      by_cases h0 : st.2.1 = 0
      · rw [h0]
        rw [List.getD_eq_getElem?_getD, List.getElem?_set]
        have hlen : 0 < st.2.2.length := by omega
        rw [if_pos rfl, if_pos hlen]
        have hold : st.2.2.getD 0 0 = 0 := by
          rw [h.1, if_pos h0]
        rw [List.getD_eq_getElem?_getD] at hold
        simp [hold]
      · rw [List.getD_eq_getElem?_getD, List.getElem?_set_ne h0,
          ← List.getD_eq_getElem?_getD, h.1, if_neg h0]
    · rw [if_neg h6, if_neg (by omega : ¬ st.2.1 + 1 = 0)]
      have h0 : ¬ st.2.1 = 0 := by omega
      refine ⟨?_, h.2⟩
      rw [h.1, if_neg h0]
  · exact h

/-- The runs scan preserves the bucket-zero invariant. -/
theorem foldl_runsStep_inv {α : Type} [DecidableEq α] (L : List α)
    (st : α × Nat × List Nat)
    (h : st.2.2.getD 0 0 = (if st.2.1 = 0 then 0 else 1) ∧ st.2.2.length = 6) :
    (L.foldl runsStep st).2.2.getD 0 0 =
        (if (L.foldl runsStep st).2.1 = 0 then 0 else 1) ∧
      (L.foldl runsStep st).2.2.length = 6 := by
  induction L generalizing st with
  | nil => exact h
  | cons a t ih => exact ih _ (runsStep_inv st a h)

/-- C5 (amended): the runs test compares the masked values `byte & (0x80 >> i)`
against the stored previous masked value, so consecutive set bits at distinct
positions also count as transitions; consequently bucket 0 ends at 1 exactly
when some byte is nonzero, and the verdict is the bucket-zero statistic
`|2*bucket[0] - N| / (2*sqrt(N)) < 1.96` (embedded in its equivalent squared
integer form) evaluated at that indicator, with `N = 8*(byte count)`. -/
theorem runs_test_amended (data : List Nat) (hne : data ≠ [])
    (hb : ∀ b ∈ data, b < 256) :
    runs_test data =
      some (decide ((2 * (if ∀ b ∈ data, b = 0 then (0 : ℤ) else 1) -
        (data.length * 8 : ℤ)) ^ 2 * 625 < 9604 * (data.length * 8))) := by
  obtain ⟨d0, rest, rfl⟩ : ∃ d0 rest, data = d0 :: rest := by
    cases data with
    | nil => exact absurd rfl hne
    | cons a t => exact ⟨a, t, rfl⟩
  unfold runs_test
  dsimp only
  rw [runs_fold_flatten]
  congr 1
  rw [decide_eq_decide]
  have hInv := foldl_runsStep_inv
    ((d0 :: rest).flatMap (fun b => (List.range 8).map (fun i => b &&& (128 >>> i))))
    (d0 &&& 128, 0, List.replicate 6 0) (by refine ⟨?_, rfl⟩; rfl)
  by_cases hz : ∀ b ∈ d0 :: rest, b = 0
  · have hd0 : d0 = 0 := hz d0 (List.mem_cons_self d0 rest)
    have hall : ∀ x ∈ (d0 :: rest).flatMap
        (fun b => (List.range 8).map (fun i => b &&& (128 >>> i))),
        x = (d0 &&& 128, 0, List.replicate 6 (0 : Nat)).1 := by
      intro x hx
      obtain ⟨B, hB, hxB⟩ := List.mem_flatMap.mp hx
      obtain ⟨i, _, rfl⟩ := List.mem_map.mp hxB
      show B &&& (128 >>> i) = d0 &&& 128
      rw [hz B hB, hd0]
      simp
    rw [foldl_runsStep_const _ _ hall, if_pos hz]
    have hbget : (d0 &&& 128, 0, List.replicate 6 (0 : Nat)).2.2.getD 0 0 = 0 := rfl
    rw [hbget]
    push_cast
    exact Iff.rfl
  · rw [if_neg hz]
    obtain ⟨B, hB, hBne⟩ : ∃ B ∈ d0 :: rest, B ≠ 0 := by
      push_neg at hz
      exact hz
    have hwit : ∃ x ∈ (d0 :: rest).flatMap
        (fun b => (List.range 8).map (fun i => b &&& (128 >>> i))),
        x ≠ (d0 &&& 128, 0, List.replicate 6 (0 : Nat)).1 := by
      by_cases hp : d0 &&& 128 = 0
      · obtain ⟨k, hk⟩ : ∃ k, B.testBit k = true := by
          by_contra hcon
          push_neg at hcon
          apply hBne
          apply Nat.zero_of_testBit_eq_false
          intro i
          simpa using hcon i
        have hk8 : k < 8 := by
          have h1 := Nat.testBit_implies_ge hk
          by_contra hcon
          push_neg at hcon
          have h2 : (2 : ℕ) ^ 8 ≤ 2 ^ k := Nat.pow_le_pow_right (by omega) hcon
          have h3 := hb B hB
          omega
        refine ⟨B &&& (128 >>> (7 - k)), ?_, ?_⟩
        · exact List.mem_flatMap.mpr
            ⟨B, hB, List.mem_map_of_mem _ (List.mem_range.mpr (by omega))⟩
        · show B &&& (128 >>> (7 - k)) ≠ d0 &&& 128
          have hmask : (128 : ℕ) >>> (7 - k) = 2 ^ k := by
            rw [Nat.shiftRight_eq_div_pow, show (128 : ℕ) = 2 ^ 7 by norm_num,
              Nat.pow_div (by omega) (by omega)]
            congr 1
            omega
          rw [hmask, Nat.and_two_pow, hk, hp]
          simp
      · refine ⟨d0 &&& (128 >>> 1), ?_, ?_⟩
        · exact List.mem_flatMap.mpr ⟨d0, List.mem_cons_self d0 rest,
            List.mem_map_of_mem _ (List.mem_range.mpr (by omega : (1 : ℕ) < 8))⟩
        · show d0 &&& (128 >>> 1) ≠ d0 &&& 128
          have hp128 : d0 &&& 128 = 128 := by
            have h1 := Nat.and_two_pow d0 7
            norm_num at h1
            rcases htb : d0.testBit 7 with _ | _
            · rw [htb] at h1
              simp at h1
              exact absurd h1 hp
            · rw [htb] at h1
              simpa using h1
          have hle : d0 &&& (128 >>> 1) ≤ 64 := by
            have h64 : (128 : ℕ) >>> 1 = 64 := by norm_num [Nat.shiftRight_eq_div_pow]
            rw [h64]
            exact Nat.and_le_right
          omega
    have hcnt := foldl_runsStep_pos _ _ hwit
    have hb1 : (((d0 :: rest).flatMap
        (fun b => (List.range 8).map (fun i => b &&& (128 >>> i)))).foldl runsStep
          (d0 &&& 128, 0, List.replicate 6 0)).2.2.getD 0 0 = 1 := by
      rw [hInv.1, if_neg (by omega)]
    rw [hb1]
    push_cast
    exact Iff.rfl

/-- Witness for the amended C5 claim at the all-ones input `[0xFF, 0xFF]`. -/
theorem runs_test_amended_witness :
    (([255, 255] : List Nat) ≠ [] ∧ ∀ b ∈ ([255, 255] : List Nat), b < 256) ∧
      runs_test [255, 255] =
        some (decide ((2 * (if ∀ b ∈ ([255, 255] : List Nat), b = 0 then (0 : ℤ) else 1) -
          (([255, 255] : List Nat).length * 8 : ℤ)) ^ 2 * 625 <
            9604 * (([255, 255] : List Nat).length * 8))) :=
  ⟨by decide, runs_test_amended [255, 255] (by decide) (by decide)⟩

/-- C10: calling the extractor with an empty samples slice, or with
`output_length = 0`, panics (usize underflow respectively division by zero
while computing `(samples.len() - 1) / output_length`, modelled by `none`)
instead of returning a value or a reportable error. -/
theorem extract_empty_or_zero_output_panics (num_lsb output_length : Nat)
    (samples : List F32) :
    extract_random_data [] num_lsb output_length = none ∧
      extract_random_data samples num_lsb 0 = none := by
  constructor
  · simp [extract_random_data]
  · by_cases h : samples.length = 0
    · simp [extract_random_data, h]
    · simp [extract_random_data, h]

/-- C4: for valid parameters — `output_length ≥ 1` and a positive stride
`(n-1)/output_length` — the extractor succeeds and returns exactly
`output_length` bytes: the strided index walk visits at least `output_length`
indices and the early-stop `break` cuts the output at exactly
`output_length`.  (`num_lsb ≤ 8` is the data-model parameter invariant; for
`num_lsb ≥ 32` the shift in the loop body would panic.) -/
theorem extract_length_exact (samples : List F32) (num_lsb output_length : Nat)
    (hout : 1 ≤ output_length) (hstr : 1 ≤ (samples.length - 1) / output_length)
    (hlsb : num_lsb ≤ 8) :
    ∃ out, extract_random_data samples num_lsb output_length = some out ∧
      out.length = output_length := by
  have hLle : output_length ≤ samples.length - 1 := by
    have h1 := (Nat.le_div_iff_mul_le (by omega : 0 < output_length)).mp hstr
    omega
  have hn2 : 2 ≤ samples.length := by omega
  unfold extract_random_data
  rw [if_neg (by omega : ¬ samples.length = 0), if_neg (by omega : ¬ output_length = 0)]
  dsimp only
  rw [if_neg (by omega : ¬ (samples.length - 1) / output_length = 0),
    if_neg (by omega : ¬ 32 ≤ num_lsb)]
  refine ⟨_, rfl, ?_⟩
  rw [List.length_take, List.length_map, List.length_range']
  have hK : output_length ≤
      (samples.length - 1 + (samples.length - 1) / output_length - 1) /
        ((samples.length - 1) / output_length) := by
    rw [Nat.le_div_iff_mul_le (by omega : 0 < (samples.length - 1) / output_length)]
    calc output_length * ((samples.length - 1) / output_length)
        = (samples.length - 1) / output_length * output_length := by ring
      _ ≤ samples.length - 1 := Nat.div_mul_le_self _ _
      _ ≤ samples.length - 1 + (samples.length - 1) / output_length - 1 := by omega
  omega

/-- Witness for C4 at five zero samples with `output_length = 2` (stride 2). -/
theorem extract_length_exact_witness :
    (1 ≤ 2 ∧ 1 ≤ ((List.replicate 5 (F32.ofInt 0)).length - 1) / 2 ∧ 8 ≤ 8) ∧
      ∃ out, extract_random_data (List.replicate 5 (F32.ofInt 0)) 8 2 = some out ∧
        out.length = 2 :=
  ⟨by decide, extract_length_exact (List.replicate 5 (F32.ofInt 0)) 8 2 (by decide)
    (by decide) (by decide)⟩

/-- C7: every byte the extractor returns has all bits above position
`num_lsb - 1` equal to zero, i.e. is smaller than `2 ^ num_lsb`: it is the
difference's bit pattern masked with `(1 << num_lsb) - 1`, truncated to a
byte. -/
theorem extract_bytes_masked (samples : List F32) (num_lsb output_length : Nat)
    (out : List Nat) (_h1 : 1 ≤ num_lsb) (h8 : num_lsb ≤ 8)
    (hex : extract_random_data samples num_lsb output_length = some out) :
    ∀ b ∈ out, b < 2 ^ num_lsb := by
  unfold extract_random_data at hex
  split at hex
  · exact absurd hex (by simp)
  · split at hex
    · exact absurd hex (by simp)
    · dsimp only at hex
      split at hex
      · exact absurd hex (by simp)
      · split at hex
        · exact absurd hex (by simp)
        · rw [Option.some.injEq] at hex
          subst hex
          intro b hb
          have hb2 := List.mem_of_mem_take hb
          obtain ⟨i, _, rfl⟩ := List.mem_map.mp hb2
          rw [Nat.and_pow_two_sub_one_eq_mod]
          have hlt : F32.toBits (F32.sub (samples.getD i (F32.ofInt 0))
              (samples.getD (i - 1) (F32.ofInt 0))) % 2 ^ num_lsb < 2 ^ num_lsb :=
            Nat.mod_lt _ (by positivity)
          have h256 : F32.toBits (F32.sub (samples.getD i (F32.ofInt 0))
              (samples.getD (i - 1) (F32.ofInt 0))) % 2 ^ num_lsb < 256 := by
            have hle : (2 : ℕ) ^ num_lsb ≤ 2 ^ 8 := Nat.pow_le_pow_right (by omega) h8
            omega
          rw [Nat.mod_eq_of_lt h256]
          exact hlt

/-- Witness for C7 at three samples with values 0, 1, 0 and
`num_lsb = 8, output_length = 2`. -/
theorem extract_bytes_masked_witness :
    (1 ≤ 8 ∧ 8 ≤ 8 ∧
      extract_random_data [F32.ofInt 0, F32.ofInt 1, F32.ofInt 0] 8 2 = some [0, 0]) ∧
      ∀ b ∈ [0, 0], b < 2 ^ 8 :=
  ⟨by decide, extract_bytes_masked [F32.ofInt 0, F32.ofInt 1, F32.ofInt 0] 8 2 [0, 0]
    (by decide) (by decide) (by decide)⟩

/-- Bridge: for a nonempty byte list, the integer comparisons of
`monobit_test` say exactly that the set-bit proportion lies strictly between
0.45 and 0.55. -/
theorem monobit_test_iff (data : List Nat) (hne : data ≠ []) :
    monobit_test data = true ↔
      ((0.45 : ℚ) < (bitCount data : ℚ) / (8 * data.length : ℚ) ∧
        (bitCount data : ℚ) / (8 * data.length : ℚ) < 0.55) := by
  have hlen : 0 < data.length := List.length_pos.mpr hne
  have hT : (0 : ℚ) < 8 * data.length := by positivity
  unfold monobit_test
  rw [Bool.and_eq_true, decide_eq_true_iff, decide_eq_true_iff]
  constructor
  · rintro ⟨ha, hb⟩
    constructor
    · rw [lt_div_iff₀ hT]
      have ha' : (9 * (data.length * 8) : ℚ) < 20 * bitCount data := by exact_mod_cast ha
      nlinarith
    · rw [div_lt_iff₀ hT]
      have hb' : (20 * bitCount data : ℚ) < 11 * (data.length * 8) := by exact_mod_cast hb
      nlinarith
  · rintro ⟨ha, hb⟩
    rw [lt_div_iff₀ hT] at ha
    rw [div_lt_iff₀ hT] at hb
    constructor
    · have ha' : (9 * (data.length * 8) : ℚ) < 20 * bitCount data := by nlinarith
      exact_mod_cast ha'
    · have hb' : (20 * bitCount data : ℚ) < 11 * (data.length * 8) := by nlinarith
      exact_mod_cast hb'

/-- The bit count of the alternating example is half the bits. -/
theorem bitCount_altBytes (k : Nat) : bitCount (altBytes k) = 4 * k := by
  unfold bitCount altBytes
  rw [List.map_map]
  have h1 : (List.range k).map (countOnes ∘ fun i => if i % 2 = 0 then 0xAA else 0x55) =
      (List.range k).map (fun _ => 4) := by
    apply List.map_congr_left
    intro i _
    show countOnes (if i % 2 = 0 then 0xAA else 0x55) = 4
    by_cases h : i % 2 = 0
    · rw [if_pos h]
      decide
    · rw [if_neg h]
      decide
  rw [h1]
  have h2 : ∀ m : Nat, ((List.range m).map (fun _ => (4 : Nat))).sum = 4 * m := by
    intro m
    induction m with
    | zero => rfl
    | succ j ihj =>
      rw [List.range_succ, List.map_append, List.sum_append, ihj]
      simp
      omega
  exact h2 k

/-- C6: the monobit verdict is pass exactly when the set-bit proportion lies
strictly between 0.45 and 0.55; the alternating `0xAA, 0x55, ...` sequence
(half the bits set) passes, and the all-zero sequence fails.  The bounds
`bitCount data < 2^32` and `k < 2^30` (so that the alternating example's
bit count `4*k` also fits) restrict the statement to the domain where the
source's `u32` bit-count accumulator does not overflow — outside it the
source would panic in the debug profile rather than return a verdict. -/
theorem monobit_iff_and_examples (data : List Nat) (hne : data ≠ [])
    (_hbc : bitCount data < 2 ^ 32) (k : Nat) (hk : 1 ≤ k) (_hk2 : k < 2 ^ 30) :
    (monobit_test data = true ↔
      ((0.45 : ℚ) < (bitCount data : ℚ) / (8 * data.length : ℚ) ∧
        (bitCount data : ℚ) / (8 * data.length : ℚ) < 0.55)) ∧
      monobit_test (altBytes k) = true ∧
      monobit_test (List.replicate k 0) = false := by
  refine ⟨monobit_test_iff data hne, ?_, ?_⟩
  · unfold monobit_test
    rw [bitCount_altBytes]
    have hlen : (altBytes k).length = k := by
      unfold altBytes
      rw [List.length_map, List.length_range]
    rw [hlen, Bool.and_eq_true, decide_eq_true_iff, decide_eq_true_iff]
    omega
  · unfold monobit_test
    have hbc : bitCount (List.replicate k 0) = 0 := by
      unfold bitCount
      rw [List.map_replicate]
      have h0 : countOnes 0 = 0 := by decide
      rw [h0, List.sum_replicate]
      simp
    rw [hbc]
    simp

/-- Witness for C6 at `data = [0xAA]` and `k = 1`. -/
theorem monobit_iff_and_examples_witness :
    (([0xAA] : List Nat) ≠ [] ∧ bitCount [0xAA] < 2 ^ 32 ∧ 1 ≤ 1 ∧ 1 < 2 ^ 30) ∧
      ((monobit_test [0xAA] = true ↔
        ((0.45 : ℚ) < (bitCount [0xAA] : ℚ) / (8 * ([0xAA] : List Nat).length : ℚ) ∧
          (bitCount [0xAA] : ℚ) / (8 * ([0xAA] : List Nat).length : ℚ) < 0.55)) ∧
        monobit_test (altBytes 1) = true ∧
        monobit_test (List.replicate 1 0) = false) :=
  ⟨⟨by decide, by decide, by decide, by decide⟩,
    monobit_iff_and_examples [0xAA] (by decide) (by decide) 1 (by decide) (by decide)⟩

/-- Witness for C9 at the concrete two-sample sequence with values 0 and 1:
the hypotheses hold and the conclusion is produced by the theorem itself. -/
theorem conditioner_mean_zero_and_peak_one_witness :
    (([⟨0, 0⟩, ⟨1, 0⟩] : List Frac) ≠ [] ∧
      ∃ a ∈ ([⟨0, 0⟩, ⟨1, 0⟩] : List Frac), ∃ b ∈ ([⟨0, 0⟩, ⟨1, 0⟩] : List Frac),
        Frac.q a ≠ Frac.q b) ∧
    ((∃ x, f32Mean (conditioned (([⟨0, 0⟩, ⟨1, 0⟩] : List Frac).map F32.fin)) = F32.fin x ∧
        x.n = 0) ∧
      (∃ y, maxAbs (conditioned (([⟨0, 0⟩, ⟨1, 0⟩] : List Frac).map F32.fin)) = F32.fin y ∧
        y.n = (y.d : ℤ) + 1)) := by
  have hvar : ∃ a ∈ ([⟨0, 0⟩, ⟨1, 0⟩] : List Frac), ∃ b ∈ ([⟨0, 0⟩, ⟨1, 0⟩] : List Frac),
      Frac.q a ≠ Frac.q b := by
    refine ⟨⟨0, 0⟩, by simp, ⟨1, 0⟩, by simp, ?_⟩
    norm_num [Frac.q]
  exact ⟨⟨by simp, hvar⟩, conditioner_mean_zero_and_peak_one _ (by simp) hvar⟩

end Randomize7
